import Mathlib

/-!
# Verification of the `gridish` grid-reference codec

A shallow embedding of the `gridish` Rust crate (British OSGB and Irish OSI
national-grid references): the 5×5 letter grids, precision arithmetic on
bounded metre values, the digit-splitting parser, the grid-point
parse/format algorithm (with the tetrad feature enabled), and the two
national-grid wrapper types.  Machine integers are modelled as `Nat`; the
one place where `u32` overflow matters (the super-square offset addition in
`OSGB::new`) is modelled explicitly, both with wrapping (release) semantics
and with checked (debug) semantics.  Fallible Rust operations return
`Except Error`; the `unwrap` calls inside the `Display` implementations are
modelled by `Option`-valued display functions whose `none` case is the
panic.

Rust's `str` length checks and slicing count UTF-8 bytes, so the parsing
pipeline exists in two models.  The char-level model (`digits`,
`Point.fromStr`, `OSGB.fromStr`, `OSI.fromStr`) equates byte length with
character count and splits character lists totally; it agrees with the
source exactly on ASCII input, which covers every string the formatting
side produces.  The byte-faithful model (`digitsB`, `Point.fromStrB`,
`OSGB.fromStrB`, `OSI.fromStrB`) counts bytes via `utf8Size` and models
`str::split_at` and range slicing as partial operations whose `none`
value is the char-boundary panic — which the source can actually raise on
caller-supplied input such as `"N²"`.
-/

/-- Modelled from the spec: the crate's `constants` module is not among the
provided sources; the spec fixes the domain size at 500 000 m (one
super-square) with decade steps from 100 km down to 1 m, and a 2 km tetrad
sub-division. -/
def constants._500KM : Nat := 500000

def constants._100KM : Nat := 100000

def constants._10KM : Nat := 10000

def constants._2KM : Nat := 2000

def constants._1KM : Nat := 1000

def constants._100M : Nat := 100

def constants._10M : Nat := 10

def constants._1M : Nat := 1

/-- `2^32`, the size of the `u32` value space. -/
def U32LIM : Nat := 4294967296

/-- The error type of the crate (`src/error.rs`). -/
inductive Error where
  | ParseError (msg : String)
  | InvalidPrecision (msg : String)
  | OutOfBounds
deriving DecidableEq

instance {ε α : Type} [DecidableEq ε] [DecidableEq α] :
    DecidableEq (Except ε α) := fun a b =>
  match a, b with
  | .ok x, .ok y =>
    if h : x = y then isTrue (by rw [h]) else isFalse (by simp [h])
  | .ok _, .error _ => isFalse (by simp)
  | .error _, .ok _ => isFalse (by simp)
  | .error x, .error y =>
    if h : x = y then isTrue (by rw [h]) else isFalse (by simp [h])

/-- The kinds of Rust's `core::num::ParseIntError` reachable from
`u32::from_str`. -/
inductive IntErrKind where
  | empty
  | invalidDigit
  | posOverflow
deriving DecidableEq

/-- The `Debug` rendering of a `ParseIntError` kind. -/
def IntErrKind.name : IntErrKind → String
  | .empty => "Empty"
  | .invalidDigit => "InvalidDigit"
  | .posOverflow => "PosOverflow"

/-- `format!("{:?}", e)` for a `ParseIntError`. -/
def IntErrKind.repr (k : IntErrKind) : String :=
  "ParseIntError \x7b kind: " ++ k.name ++ " \x7d"

/-- The supported resolutions (`src/precision.rs`).  The `_2Km` variant is
modelled from the spec: it is the feature-gated tetrad pseudo-level, absent
from the provided `precision.rs`, sitting between 10 km and 1 km in
coarseness. -/
inductive Precision where
  | _100Km
  | _10Km
  | _2Km
  | _1Km
  | _100M
  | _10M
  | _1M
deriving DecidableEq

/-- `Precision::metres` (`src/precision.rs`).  The `_2Km` value is modelled
from the spec's 2 km sub-division. -/
def Precision.metres : Precision → Nat
  | ._100Km => constants._100KM
  | ._10Km => constants._10KM
  | ._2Km => constants._2KM
  | ._1Km => constants._1KM
  | ._100M => constants._100M
  | ._10M => constants._10M
  | ._1M => constants._1M

/-- `Precision::digits` (`src/precision.rs`).  The `_2Km` value is modelled
from the spec (a tetrad reference renders two digits plus a letter). -/
def Precision.digits : Precision → Nat
  | ._100Km => 0
  | ._10Km => 2
  | ._2Km => 2
  | ._1Km => 4
  | ._100M => 6
  | ._10M => 8
  | ._1M => 10

/-- The position of a variant in the declaration order: Rust's derived
`Ord` on `Precision` compares by this rank (coarsest first). -/
def Precision.rank : Precision → Nat
  | ._100Km => 0
  | ._10Km => 1
  | ._2Km => 2
  | ._1Km => 3
  | ._100M => 4
  | ._10M => 5
  | ._1M => 6

/-- `c.is_ascii_whitespace()` (space, tab, newline, form feed, carriage
return). -/
def isAsciiWhitespace (c : Char) : Bool :=
  c.toNat = 32 ∨ c.toNat = 9 ∨ c.toNat = 10 ∨ c.toNat = 12 ∨ c.toNat = 13

/-- `c.to_ascii_uppercase()`. -/
def toAsciiUppercase (c : Char) : Char :=
  if 97 ≤ c.toNat ∧ c.toNat ≤ 122 then Char.ofNat (c.toNat - 32) else c

/-- `c.is_ascii_alphabetic()`. -/
def isAsciiAlphabetic (c : Char) : Bool :=
  (65 ≤ c.toNat ∧ c.toNat ≤ 90) ∨ (97 ≤ c.toNat ∧ c.toNat ≤ 122)

/-- An ASCII decimal digit. -/
def isDigitChar (c : Char) : Bool :=
  48 ≤ c.toNat ∧ c.toNat ≤ 57

/-- `utils::trim_string`: drop ASCII whitespace, uppercase the rest. -/
def trim_string (s : List Char) : List Char :=
  (s.filter (fun c => !isAsciiWhitespace c)).map toAsciiUppercase

/-- Accumulating digit scan of `u32::from_str`: one digit per step, with
the overflow check against `2^32` that `checked_mul`/`checked_add`
perform. -/
def parseU32go (acc : Nat) : List Char → Except IntErrKind Nat
  | [] => .ok acc
  | c :: rest =>
    if isDigitChar c then
      let v := acc * 10 + (c.toNat - 48)
      if v ≥ U32LIM then .error .posOverflow else parseU32go v rest
    else .error .invalidDigit

/-- `u32::from_str`: an optional leading `'+'`, then decimal digits; empty
input is `Empty`, a bare sign is `InvalidDigit`, values `≥ 2^32` are
`PosOverflow`. -/
def parseU32 (cs : List Char) : Except IntErrKind Nat :=
  match cs with
  | [] => .error .empty
  | c :: rest =>
    if c = '+' then
      if rest.isEmpty then .error .invalidDigit else parseU32go 0 rest
    else parseU32go 0 (c :: rest)

/-- Decimal rendering, most significant digit first, by fuel-bounded
division (the shape of Rust's integer `Display`). -/
def decRenderAux : Nat → Nat → List Char → List Char
  | 0, _, acc => acc
  | fuel + 1, n, acc =>
    let d := Char.ofNat (48 + n % 10)
    if n < 10 then d :: acc else decRenderAux fuel (n / 10) (d :: acc)

/-- The decimal digits of `n`. -/
def decRender (n : Nat) : List Char :=
  decRenderAux (n + 1) n []

/-- Left-pad with `'0'` to `w` characters: `format!("{:0w$}", ·)`. -/
def padLeft (w : Nat) (ds : List Char) : List Char :=
  List.replicate (w - ds.length) '0' ++ ds

/-- The 5×5 primary letter grid (`src/grid.rs`), origin at the bottom-left
square `V`. -/
def GRID_WIDTH : Nat := 5

def GRID : List Char :=
  ['V', 'W', 'X', 'Y', 'Z', 'Q', 'R', 'S', 'T', 'U', 'L', 'M', 'N', 'O',
   'P', 'F', 'G', 'H', 'J', 'K', 'A', 'B', 'C', 'D', 'E']

/-- The tetrad letter grid (`src/grid.rs`, feature `tetrads`). -/
def TETRAD_GRID : List Char :=
  ['A', 'F', 'K', 'Q', 'V', 'B', 'G', 'L', 'R', 'W', 'C', 'H', 'M', 'S',
   'X', 'D', 'I', 'N', 'T', 'Y', 'E', 'J', 'P', 'U', 'Z']

/-- `Iterator::position`: index of the first occurrence. -/
def position (square : Char) : List Char → Option Nat
  | [] => none
  | c :: rest =>
    if c = square then some 0 else (position square rest).map (· + 1)

/-- `grid::grid_to_coords`. -/
def grid_to_coords (square : Char) (grid : List Char) :
    Except Error (Nat × Nat) :=
  match position square grid with
  | none =>
    .error (.ParseError (String.singleton square ++
      " is not a valid grid square."))
  | some index => .ok (index % GRID_WIDTH, index / GRID_WIDTH)

/-- `grid::coords_to_grid`. -/
def coords_to_grid (column row : Nat) (grid : List Char) :
    Except Error Char :=
  if column ≥ GRID_WIDTH ∨ row ≥ GRID_WIDTH then .error .OutOfBounds
  else
    match grid.get? (column + GRID_WIDTH * row) with
    | some c => .ok c
    | none => .error .OutOfBounds

/-- `grid::square_to_coords`. -/
def square_to_coords (square : Char) : Except Error (Nat × Nat) :=
  grid_to_coords square GRID

/-- `grid::coords_to_square`. -/
def coords_to_square (column row : Nat) : Except Error Char :=
  coords_to_grid column row GRID

/-- `grid::tetrad_to_coords` (feature `tetrads`). -/
def tetrad_to_coords (square : Char) : Except Error (Nat × Nat) :=
  grid_to_coords square TETRAD_GRID

/-- `grid::coords_to_tetrad` (feature `tetrads`). -/
def coords_to_tetrad (column row : Nat) : Except Error Char :=
  coords_to_grid column row TETRAD_GRID

/-- `Metres` (`src/coordinates/metres.rs`): a `u32` wrapper; the
`< 500 km` bound is enforced dynamically by `TryFrom`. -/
structure Metres where
  val : Nat
deriving DecidableEq

/-- `Metres::precision`: truncate below the precision's metre span. -/
def Metres.precision (m : Metres) (p : Precision) : Metres :=
  ⟨m.val - m.val % p.metres⟩

/-- `Metres::inner`. -/
def Metres.inner (m : Metres) : Nat :=
  m.val

/-- `Metres::padded`: the metres within the current 100 km square,
zero-padded to the precision's digit width. -/
def Metres.padded (m : Metres) (p : Precision) : List Char :=
  if p.digits = 0 then []
  else padLeft (p.digits / 2) (decRender ((m.val % constants._100KM) / p.metres))

/-- `impl TryFrom<u32> for Metres`. -/
def Metres.tryFrom (value : Nat) : Except Error Metres :=
  if value ≥ constants._500KM then .error .OutOfBounds else .ok ⟨value⟩

/-- The digit-count parse error message of `utils::digits`. -/
def digitCountMsg (n : Nat) : String :=
  toString n ++ " is not a valid number of digits. Supported values: 0, 2, 4, 6, 8, 10."

/-- One half of the digit string through `u32::from_str`, with the
`map_err` of `utils::digits`. -/
def parseHalf (cs : List Char) : Except Error Nat :=
  match parseU32 cs with
  | .ok v => .ok v
  | .error k => .error (.ParseError k.repr)

/-- `utils::digits`: split a digit suffix into eastings, northings and the
precision inferred from its length.  This is the char-level model, exact
for ASCII input where Rust's byte length and `split_at` coincide with
character count and list splitting; `digitsB` below is the byte-faithful
model. -/
def digits (s : List Char) : Except Error (Nat × Nat × Precision) :=
  if s.length > 10 ∨ s.length % 2 ≠ 0 then
    .error (.ParseError (digitCountMsg s.length))
  else do
    let en ←
      if s.isEmpty then pure ((0 : Nat), (0 : Nat))
      else do
        let e ← parseHalf (s.take (s.length / 2))
        let n ← parseHalf (s.drop (s.length / 2))
        pure (e, n)
    let precision ←
      match s.length with
      | 0 => Except.ok Precision._100Km
      | 2 => Except.ok Precision._10Km
      | 4 => Except.ok Precision._1Km
      | 6 => Except.ok Precision._100M
      | 8 => Except.ok Precision._10M
      | 10 => Except.ok Precision._1M
      | l =>
        Except.error (Error.InvalidPrecision
          (toString l ++ " is not a valid number of digits"))
    .ok (en.1 * precision.metres, en.2 * precision.metres, precision)

/-- `coordinates::point::Point`: eastings, northings and precision within a
single 500 km square. -/
structure Point where
  eastings : Metres
  northings : Metres
  precision : Precision
deriving DecidableEq

/-- `Point::new`: truncates both coordinates to the precision. -/
def Point.new (eastings northings : Metres) (precision : Precision) : Point :=
  ⟨eastings.precision precision, northings.precision precision, precision⟩

/-- The ordinary (non-tetrad) tail of `Point::from_str`: parse the digit
suffix and add it to the square's base offset. -/
def Point.fromStrDigits (eastings northings : Nat) (rest : List Char) :
    Except Error Point := do
  let (east, north, precision) ← digits rest
  let em ← Metres.tryFrom (eastings + east)
  let nm ← Metres.tryFrom (northings + north)
  .ok ⟨em, nm, precision⟩

/-- `impl FromStr for Point`, with the `tetrads` feature enabled: a grid
letter, then either the 2-digits-plus-tetrad-letter special case (length 4,
alphabetic last character) or a plain digit suffix.  This is the
char-level model, exact for ASCII input where the source's byte-length
test `s.len() == 4` and byte slicing coincide with character count and
list operations; `Point.fromStrB` below is the byte-faithful model. -/
def Point.fromStr (s : List Char) : Except Error Point :=
  match s with
  | [] => .error (.ParseError "String can not be empty.")
  | c :: rest => do
    let (column, row) ← square_to_coords c
    let eastings := column * constants._100KM
    let northings := row * constants._100KM
    match s.getLast? with
    | some lc =>
      if s.length = 4 ∧ isAsciiAlphabetic lc then do
        let (tcolumn, trow) ← tetrad_to_coords lc
        let eastings := eastings + tcolumn * constants._2KM
        let northings := northings + trow * constants._2KM
        let (east, north, _precision) ← digits rest.dropLast
        let em ← Metres.tryFrom (eastings + east)
        let nm ← Metres.tryFrom (northings + north)
        .ok ⟨em, nm, ._2Km⟩
      else Point.fromStrDigits eastings northings rest
    | none => Point.fromStrDigits eastings northings rest

/-- `impl Display for Point` (feature `tetrads`), with the two internal
`unwrap` calls modelled as the `none` case. -/
def Point.display? (p : Point) : Option (List Char) := do
  let eastings := p.eastings.inner
  let northings := p.northings.inner
  let column := eastings / constants._100KM
  let row := northings / constants._100KM
  let letter ← (coords_to_square column row).toOption
  if p.precision = ._2Km then do
    let tetrad ← (coords_to_tetrad ((eastings % constants._10KM) / constants._2KM)
      ((northings % constants._10KM) / constants._2KM)).toOption
    pure (letter :: (p.eastings.padded ._10Km ++ p.northings.padded ._10Km ++ [tetrad]))
  else
    pure (letter :: (p.eastings.padded p.precision ++ p.northings.padded p.precision))

/-- The 500 km grid's offset from the true origin (`src/osgb.rs`). -/
def OFFSET_EAST : Nat := constants._500KM * 2

def OFFSET_NORTH : Nat := constants._500KM

/-- `OSGB` (`src/osgb.rs`): a 500 km super-square position plus an inner
point. -/
structure OSGB where
  square_500k_east : Nat
  square_500k_north : Nat
  point : Point
deriving DecidableEq

/-- `OSGB::new`, with the release-mode (wrapping) semantics of the `u32`
offset additions made explicit by `% 2^32`. -/
def OSGB.new (eastings northings : Nat) (precision : Precision) :
    Except Error OSGB :=
  let square_500k_east := ((eastings + OFFSET_EAST) % U32LIM) / constants._500KM
  let square_500k_north := ((northings + OFFSET_NORTH) % U32LIM) / constants._500KM
  do
    let square ← coords_to_square square_500k_east square_500k_north
    if (['S', 'T', 'N', 'O', 'H'].contains square) = false then
      .error (.ParseError (String.singleton square ++
        " is not a supported 500km square."))
    else do
      let e ← Metres.tryFrom (eastings % constants._500KM)
      let n ← Metres.tryFrom (northings % constants._500KM)
      .ok ⟨square_500k_east, square_500k_north, Point.new e n precision⟩

/-- `OSGB::new` under overflow-checked (debug) arithmetic: `none` models
the panic raised when `eastings + OFFSET_EAST` or
`northings + OFFSET_NORTH` overflows `u32`. -/
def OSGB.newChecked (eastings northings : Nat) (precision : Precision) :
    Option (Except Error OSGB) :=
  if eastings + OFFSET_EAST ≥ U32LIM ∨ northings + OFFSET_NORTH ≥ U32LIM then
    none
  else some (OSGB.new eastings northings precision)

/-- `OSGB::recalculate`: a finer-than-current request is a no-op. -/
def OSGB.recalculate (r : OSGB) (precision : Precision) : OSGB :=
  if r.point.precision.rank < precision.rank then r
  else
    ⟨r.square_500k_east, r.square_500k_north,
     Point.new r.point.eastings r.point.northings precision⟩

/-- `impl FromStr for OSGB`: trim and uppercase, consume the super-square
letter, parse the remainder as a point. -/
def OSGB.fromStr (s : List Char) : Except Error OSGB :=
  let string := trim_string s
  match string with
  | [] => .error (.ParseError "String can not be empty.")
  | c :: rest => do
    let (east, north) ← square_to_coords c
    let point ← Point.fromStr rest
    .ok ⟨east, north, point⟩

/-- `impl Display for OSGB`, the internal `unwrap` modelled as `none`. -/
def OSGB.display? (r : OSGB) : Option (List Char) := do
  let square ← (coords_to_square r.square_500k_east r.square_500k_north).toOption
  let ps ← r.point.display?
  pure (square :: ps)

/-- `OSI` (`src/osi.rs`): a bare point, no super-square, no offset. -/
structure OSI where
  point : Point
deriving DecidableEq

/-- `OSI::new`. -/
def OSI.new (eastings northings : Nat) (precision : Precision) :
    Except Error OSI := do
  let e ← Metres.tryFrom eastings
  let n ← Metres.tryFrom northings
  .ok ⟨Point.new e n precision⟩

/-- `OSI::recalculate`. -/
def OSI.recalculate (r : OSI) (precision : Precision) : OSI :=
  if r.point.precision.rank < precision.rank then r
  else ⟨Point.new r.point.eastings r.point.northings precision⟩

/-- `impl FromStr for OSI`. -/
def OSI.fromStr (s : List Char) : Except Error OSI := do
  let point ← Point.fromStr (trim_string s)
  .ok ⟨point⟩

/-- `impl Display for OSI`. -/
def OSI.display? (r : OSI) : Option (List Char) :=
  r.point.display?

/-- `char::len_utf8`: the UTF-8 byte size of a character. -/
def utf8Size (c : Char) : Nat :=
  if c.toNat < 128 then 1
  else if c.toNat < 2048 then 2
  else if c.toNat < 65536 then 3
  else 4

/-- `str::len`: the UTF-8 byte length of a string. -/
def byteLen (s : List Char) : Nat :=
  (s.map utf8Size).sum

/-- `str::split_at` at byte index `mid`: `none` is the panic raised when
`mid` is not a character boundary (or exceeds the byte length). -/
def splitAtBytes? : Nat → List Char → Option (List Char × List Char)
  | 0, s => some ([], s)
  | _ + 1, [] => none
  | mid, c :: rest =>
    if utf8Size c ≤ mid then
      (splitAtBytes? (mid - utf8Size c) rest).map
        (fun pr => (c :: pr.1, pr.2))
    else none

/-- The byte slice `&s[i..j]`: `none` is the panic raised when either end
is not a character boundary. -/
def sliceRange? (s : List Char) (i j : Nat) : Option (List Char) :=
  match splitAtBytes? i s with
  | none => none
  | some (_, t) =>
    match splitAtBytes? (j - i) t with
    | none => none
    | some (m, _) => some m

/-- The digit-count-to-precision match of `utils::digits` (its final arm is
the unreachable `InvalidPrecision` case). -/
def lenPrec : Nat → Except Error Precision
  | 0 => .ok ._100Km
  | 2 => .ok ._10Km
  | 4 => .ok ._1Km
  | 6 => .ok ._100M
  | 8 => .ok ._10M
  | 10 => .ok ._1M
  | l =>
    .error (.InvalidPrecision (toString l ++ " is not a valid number of digits"))

/-- `utils::digits`, byte-faithfully: the length checks use the UTF-8 byte
length and the half split is `str::split_at` at the byte midpoint; `none`
models the panic raised when that midpoint falls inside a multi-byte
character (reachable, e.g. on the suffix `"²"`). -/
def digitsB (s : List Char) : Option (Except Error (Nat × Nat × Precision)) :=
  if byteLen s > 10 ∨ byteLen s % 2 ≠ 0 then
    some (.error (.ParseError (digitCountMsg (byteLen s))))
  else if s.isEmpty then
    some (do
      let precision ← lenPrec (byteLen s)
      Except.ok (0 * precision.metres, 0 * precision.metres, precision))
  else
    match splitAtBytes? (byteLen s / 2) s with
    | none => none
    | some (e, n) =>
      some (do
        let ev ← parseHalf e
        let nv ← parseHalf n
        let precision ← lenPrec (byteLen s)
        Except.ok (ev * precision.metres, nv * precision.metres, precision))

/-- The ordinary tail of `Point::from_str`, byte-faithfully. -/
def Point.fromStrDigitsB (eastings northings : Nat) (rest : List Char) :
    Option (Except Error Point) :=
  match digitsB rest with
  | none => none
  | some (.error e) => some (.error e)
  | some (.ok (east, north, precision)) =>
    some (do
      let em ← Metres.tryFrom (eastings + east)
      let nm ← Metres.tryFrom (northings + north)
      Except.ok ⟨em, nm, precision⟩)

/-- `impl FromStr for Point`, byte-faithfully (feature `tetrads`): the
length-4 test is on bytes, and the suffix slices `&s[1..s.len()]` /
`&s[1..s.len()-1]` are byte slices whose boundary panics are `none`. -/
def Point.fromStrB (s : List Char) : Option (Except Error Point) :=
  match s with
  | [] => some (.error (.ParseError "String can not be empty."))
  | c :: _rest =>
    match square_to_coords c with
    | .error e => some (.error e)
    | .ok (column, row) =>
      let eastings := column * constants._100KM
      let northings := row * constants._100KM
      match s.getLast? with
      | some lc =>
        if byteLen s = 4 ∧ isAsciiAlphabetic lc then
          match tetrad_to_coords lc with
          | .error e => some (.error e)
          | .ok (tcolumn, trow) =>
            let eastings := eastings + tcolumn * constants._2KM
            let northings := northings + trow * constants._2KM
            match sliceRange? s 1 (byteLen s - 1) with
            | none => none
            | some mid =>
              match digitsB mid with
              | none => none
              | some (.error e) => some (.error e)
              | some (.ok (east, north, _precision)) =>
                some (do
                  let em ← Metres.tryFrom (eastings + east)
                  let nm ← Metres.tryFrom (northings + north)
                  Except.ok ⟨em, nm, ._2Km⟩)
        else
          match sliceRange? s 1 (byteLen s) with
          | none => none
          | some tail => Point.fromStrDigitsB eastings northings tail
      | none =>
        match sliceRange? s 1 (byteLen s) with
        | none => none
        | some tail => Point.fromStrDigitsB eastings northings tail

/-- `impl FromStr for OSGB`, byte-faithfully: the point substring
`&string[1..string.len()]` is a byte slice. -/
def OSGB.fromStrB (s : List Char) : Option (Except Error OSGB) :=
  let string := trim_string s
  match string with
  | [] => some (.error (.ParseError "String can not be empty."))
  | c :: _rest =>
    match square_to_coords c with
    | .error e => some (.error e)
    | .ok (east, north) =>
      match sliceRange? string 1 (byteLen string) with
      | none => none
      | some tail =>
        match Point.fromStrB tail with
        | none => none
        | some (.error e) => some (.error e)
        | some (.ok point) => some (.ok ⟨east, north, point⟩)

/-- `impl FromStr for OSI`, byte-faithfully. -/
def OSI.fromStrB (s : List Char) : Option (Except Error OSI) :=
  match Point.fromStrB (trim_string s) with
  | none => none
  | some (.error e) => some (.error e)
  | some (.ok point) => some (.ok ⟨point⟩)

/-- The invariant a `Point` satisfies after construction or parsing: both
coordinates in the 500 km domain and truncated to the precision. -/
def Point.WF (p : Point) : Prop :=
  p.eastings.val < constants._500KM ∧ p.northings.val < constants._500KM ∧
  p.eastings.val % p.precision.metres = 0 ∧
  p.northings.val % p.precision.metres = 0

/-- The invariant an `OSGB` satisfies after construction or parsing. -/
def OSGB.WF (r : OSGB) : Prop :=
  r.square_500k_east < 5 ∧ r.square_500k_north < 5 ∧ r.point.WF

/-- A character that `trim_string` passes through unchanged: not ASCII
whitespace, fixed by ASCII uppercasing. -/
def charFixed (c : Char) : Bool :=
  !isAsciiWhitespace c && (toAsciiUppercase c == c)

/-- The coordinate-to-letter-to-coordinate composite on one grid, together
with the character-class facts needed downstream, as one decidable test. -/
def gridRoundB (g : List Char) (c r : Nat) : Bool :=
  match coords_to_grid c r g with
  | .ok ch =>
    (grid_to_coords ch g == .ok (c, r)) && charFixed ch && isAsciiAlphabetic ch
  | .error _ => false

/-- One step of the accumulating decimal scan. -/
def digitStep (a : Nat) (c : Char) : Nat :=
  a * 10 + (c.toNat - 48)

/-- The five fine core precisions: those whose digit pairs render within a
100 km square (all of the spec's enumeration except the coarsest). -/
def Precision.fineCore (p : Precision) : Prop :=
  p = ._10Km ∨ p = ._1Km ∨ p = ._100M ∨ p = ._10M ∨ p = ._1M

/-- The bounds part of the invariant (no truncation): enough to make the
`Display` implementations' unwraps safe. -/
def Point.Bounded (p : Point) : Prop :=
  p.eastings.val < constants._500KM ∧ p.northings.val < constants._500KM

def OSGB.Bounded (r : OSGB) : Prop :=
  r.square_500k_east < 5 ∧ r.square_500k_north < 5 ∧ r.point.Bounded

theorem gridRoundB_GRID : ∀ c < 5, ∀ r < 5, gridRoundB GRID c r = true := by
  decide

theorem gridRoundB_TETRAD : ∀ c < 5, ∀ r < 5, gridRoundB TETRAD_GRID c r = true := by
  decide

theorem gridRound_spec {g : List Char} {c r : Nat}
    (h : gridRoundB g c r = true) :
    ∃ ch, coords_to_grid c r g = .ok ch ∧ grid_to_coords ch g = .ok (c, r) ∧
      charFixed ch = true ∧ isAsciiAlphabetic ch = true := by
  unfold gridRoundB at h
  cases hcs : coords_to_grid c r g with
  | ok ch =>
    rw [hcs] at h
    simp only [Bool.and_eq_true, beq_iff_eq] at h
    exact ⟨ch, rfl, h.1.1, h.1.2, h.2⟩
  | error e =>
    rw [hcs] at h
    exact absurd h (by simp)

theorem coords_square_roundtrip {c r : Nat} (hc : c < 5) (hr : r < 5) :
    ∃ ch, coords_to_square c r = .ok ch ∧ square_to_coords ch = .ok (c, r) ∧
      charFixed ch = true ∧ isAsciiAlphabetic ch = true :=
  gridRound_spec (gridRoundB_GRID c hc r hr)

theorem coords_tetrad_roundtrip {c r : Nat} (hc : c < 5) (hr : r < 5) :
    ∃ ch, coords_to_tetrad c r = .ok ch ∧ tetrad_to_coords ch = .ok (c, r) ∧
      charFixed ch = true ∧ isAsciiAlphabetic ch = true :=
  gridRound_spec (gridRoundB_TETRAD c hc r hr)

theorem coords_to_grid_ok_bounds {c r : Nat} {g : List Char} {ch : Char}
    (h : coords_to_grid c r g = .ok ch) : c < 5 ∧ r < 5 := by
  unfold coords_to_grid at h
  by_cases hb : c ≥ GRID_WIDTH ∨ r ≥ GRID_WIDTH
  · rw [if_pos hb] at h
    exact absurd h (by simp)
  · push_neg at hb
    exact ⟨hb.1, hb.2⟩

theorem position_lt_length {sq : Char} {i : Nat} :
    ∀ {l : List Char}, position sq l = some i → i < l.length := by
  intro l
  induction l generalizing i with
  | nil => intro h; exact absurd h (by simp [position])
  | cons c rest ih =>
    intro h
    unfold position at h
    by_cases hc : c = sq
    · rw [if_pos hc] at h
      cases h
      simp
    · rw [if_neg hc] at h
      cases hp : position sq rest with
      | none => rw [hp] at h; exact absurd h (by simp)
      | some j =>
        rw [hp] at h
        simp only [Option.map_some'] at h
        cases h
        have := ih hp
        simp
        omega

theorem grid_to_coords_ok_bounds {sq : Char} {g : List Char} {c r : Nat}
    (hg : g.length = 25) (h : grid_to_coords sq g = .ok (c, r)) :
    c < 5 ∧ r < 5 := by
  unfold grid_to_coords at h
  cases hp : position sq g with
  | none => rw [hp] at h; exact absurd h (by simp)
  | some i =>
    rw [hp] at h
    have hi : i < 25 := hg ▸ position_lt_length hp
    simp only [Except.ok.injEq, Prod.mk.injEq] at h
    obtain ⟨h1, h2⟩ := h
    constructor
    · rw [← h1]
      exact Nat.mod_lt _ (by decide)
    · rw [← h2]
      unfold GRID_WIDTH
      omega

theorem decRenderAux_shift :
    ∀ (fuel n : Nat) (acc : List Char),
      decRenderAux fuel n acc = decRenderAux fuel n [] ++ acc := by
  intro fuel
  induction fuel with
  | zero => intro n acc; simp [decRenderAux]
  | succ fuel ih =>
    intro n acc
    by_cases h : n < 10
    · simp [decRenderAux, h]
    · simp only [decRenderAux, if_neg h]
      rw [ih (n / 10) (Char.ofNat (48 + n % 10) :: acc),
        ih (n / 10) [Char.ofNat (48 + n % 10)], List.append_assoc]
      rfl

theorem decRenderAux_fuel :
    ∀ (f1 f2 n : Nat) (acc : List Char), n < f1 → n < f2 →
      decRenderAux f1 n acc = decRenderAux f2 n acc := by
  intro f1
  induction f1 with
  | zero => intro f2 n acc h1; omega
  | succ f1 ih =>
    intro f2 n acc h1 h2
    cases f2 with
    | zero => omega
    | succ f2 =>
      by_cases h : n < 10
      · simp [decRenderAux, h]
      · simp only [decRenderAux, if_neg h]
        have hn : 0 < n := by omega
        have hd : n / 10 < n := Nat.div_lt_self hn (by omega)
        exact ih f2 (n / 10) _ (by omega) (by omega)

theorem decRender_lt {n : Nat} (h : n < 10) :
    decRender n = [Char.ofNat (48 + n)] := by
  unfold decRender decRenderAux
  rw [if_pos h, Nat.mod_eq_of_lt h]

theorem decRender_ge {n : Nat} (h : 10 ≤ n) :
    decRender n = decRender (n / 10) ++ [Char.ofNat (48 + n % 10)] := by
  have hd : n / 10 < n := Nat.div_lt_self (by omega) (by omega)
  unfold decRender
  conv =>
    lhs
    rw [decRenderAux]
  rw [if_neg (by omega)]
  rw [decRenderAux_shift n (n / 10) [Char.ofNat (48 + n % 10)]]
  rw [decRenderAux_fuel n (n / 10 + 1) (n / 10) [] (by omega) (by omega)]

theorem digitChar_facts {k : Nat} (h : k < 10) :
    isDigitChar (Char.ofNat (48 + k)) = true ∧
      (Char.ofNat (48 + k)).toNat - 48 = k ∧
      charFixed (Char.ofNat (48 + k)) = true := by
  have : k = 0 ∨ k = 1 ∨ k = 2 ∨ k = 3 ∨ k = 4 ∨ k = 5 ∨ k = 6 ∨ k = 7 ∨
      k = 8 ∨ k = 9 := by omega
  rcases this with rfl | rfl | rfl | rfl | rfl | rfl | rfl | rfl | rfl | rfl <;>
    exact ⟨by decide, by decide, by decide⟩

theorem decRender_digits :
    ∀ n, ∀ c ∈ decRender n, isDigitChar c = true := by
  intro n
  induction n using Nat.strong_induction_on with
  | _ n ih =>
    intro c hc
    by_cases h : n < 10
    · rw [decRender_lt h] at hc
      simp only [List.mem_singleton] at hc
      subst hc
      exact (digitChar_facts h).1
    · rw [decRender_ge (by omega)] at hc
      rcases List.mem_append.mp hc with h1 | h1
      · exact ih (n / 10) (Nat.div_lt_self (by omega) (by omega)) c h1
      · simp only [List.mem_singleton] at h1
        subst h1
        exact (digitChar_facts (Nat.mod_lt _ (by omega))).1

theorem decRender_charFixed :
    ∀ n, ∀ c ∈ decRender n, charFixed c = true := by
  intro n
  induction n using Nat.strong_induction_on with
  | _ n ih =>
    intro c hc
    by_cases h : n < 10
    · rw [decRender_lt h] at hc
      simp only [List.mem_singleton] at hc
      subst hc
      exact (digitChar_facts h).2.2
    · rw [decRender_ge (by omega)] at hc
      rcases List.mem_append.mp hc with h1 | h1
      · exact ih (n / 10) (Nat.div_lt_self (by omega) (by omega)) c h1
      · simp only [List.mem_singleton] at h1
        subst h1
        exact (digitChar_facts (Nat.mod_lt _ (by omega))).2.2

theorem decRender_foldl :
    ∀ n a, List.foldl digitStep a (decRender n) =
      a * 10 ^ (decRender n).length + n := by
  intro n
  induction n using Nat.strong_induction_on with
  | _ n ih =>
    intro a
    by_cases h : n < 10
    · rw [decRender_lt h]
      simp only [List.foldl_cons, List.foldl_nil, List.length_singleton,
        digitStep]
      rw [(digitChar_facts h).2.1]
      ring
    · rw [decRender_ge (by omega)]
      rw [List.foldl_append]
      have hd : n / 10 < n := Nat.div_lt_self (by omega) (by omega)
      rw [ih (n / 10) hd a]
      simp only [List.foldl_cons, List.foldl_nil, List.length_append,
        List.length_singleton, digitStep]
      rw [(digitChar_facts (Nat.mod_lt n (by omega))).2.1]
      have := Nat.div_add_mod n 10
      ring_nf
      omega

theorem decRender_length_le :
    ∀ n w, 1 ≤ w → n < 10 ^ w → (decRender n).length ≤ w := by
  intro n
  induction n using Nat.strong_induction_on with
  | _ n ih =>
    intro w hw hn
    by_cases h : n < 10
    · rw [decRender_lt h]
      simpa using hw
    · rw [decRender_ge (by omega)]
      have hd : n / 10 < n := Nat.div_lt_self (by omega) (by omega)
      have hw2 : 2 ≤ w := by
        by_contra hc
        have : w = 1 := by omega
        subst this
        simp at hn
        omega
      have hdiv : n / 10 < 10 ^ (w - 1) := by
        have h10 : (10 : Nat) ^ w = 10 ^ (w - 1) * 10 := by
          rw [← pow_succ]
          congr 1
          omega
        refine Nat.div_lt_of_lt_mul ?_
        omega
      have := ih (n / 10) hd (w - 1) (by omega) hdiv
      simp only [List.length_append, List.length_singleton]
      omega

theorem foldl_digitStep_ge :
    ∀ (ds : List Char) (a : Nat), a ≤ List.foldl digitStep a ds := by
  intro ds
  induction ds with
  | nil => intro a; simp
  | cons c rest ih =>
    intro a
    simp only [List.foldl_cons]
    refine le_trans ?_ (ih (digitStep a c))
    unfold digitStep
    omega

theorem parseU32go_ok :
    ∀ (ds : List Char) (acc : Nat), (∀ c ∈ ds, isDigitChar c = true) →
      List.foldl digitStep acc ds < U32LIM →
      parseU32go acc ds = .ok (List.foldl digitStep acc ds) := by
  intro ds
  induction ds with
  | nil => intro acc _ _; simp [parseU32go]
  | cons c rest ih =>
    intro acc hd hb
    have hc : isDigitChar c = true := hd c (List.mem_cons_self c rest)
    simp only [parseU32go, hc, if_pos]
    have hv : acc * 10 + (c.toNat - 48) = digitStep acc c := rfl
    have hfold : List.foldl digitStep acc (c :: rest) =
        List.foldl digitStep (digitStep acc c) rest := by simp
    have hvb : digitStep acc c < U32LIM := by
      have := foldl_digitStep_ge rest (digitStep acc c)
      rw [hfold] at hb
      omega
    rw [hv, if_neg (by omega)]
    rw [hfold] at hb ⊢
    exact ih (digitStep acc c) (fun x hx => hd x (List.mem_cons_of_mem c hx)) hb

theorem foldl_digitStep_zeros :
    ∀ k, List.foldl digitStep 0 (List.replicate k '0') = 0 := by
  intro k
  induction k with
  | zero => rfl
  | succ k ih =>
    rw [List.replicate_succ]
    simpa [digitStep] using ih

theorem isDigitChar_ne_plus {c : Char} (h : isDigitChar c = true) :
    ¬c = '+' := by
  intro hc
  rw [hc] at h
  exact absurd h (by decide)

theorem padLeft_spec {w v : Nat} (h1 : 1 ≤ w) (h2 : v < 10 ^ w)
    (hv : v < U32LIM) :
    (padLeft w (decRender v)).length = w ∧
      (∀ c ∈ padLeft w (decRender v), isDigitChar c = true) ∧
      (∀ c ∈ padLeft w (decRender v), charFixed c = true) ∧
      parseU32 (padLeft w (decRender v)) = .ok v := by
  have hlen : (decRender v).length ≤ w := decRender_length_le v w h1 h2
  have hL : (padLeft w (decRender v)).length = w := by
    unfold padLeft
    simp only [List.length_append, List.length_replicate]
    omega
  have hdig : ∀ c ∈ padLeft w (decRender v), isDigitChar c = true := by
    intro c hc
    unfold padLeft at hc
    rcases List.mem_append.mp hc with h | h
    · rw [List.eq_of_mem_replicate h]
      decide
    · exact decRender_digits v c h
  have hfix : ∀ c ∈ padLeft w (decRender v), charFixed c = true := by
    intro c hc
    unfold padLeft at hc
    rcases List.mem_append.mp hc with h | h
    · rw [List.eq_of_mem_replicate h]
      decide
    · exact decRender_charFixed v c h
  refine ⟨hL, hdig, hfix, ?_⟩
  have hval : List.foldl digitStep 0 (padLeft w (decRender v)) = v := by
    unfold padLeft
    rw [List.foldl_append, foldl_digitStep_zeros]
    rw [decRender_foldl v 0]
    ring
  cases hp : padLeft w (decRender v) with
  | nil =>
    rw [hp] at hL
    simp at hL
    omega
  | cons c rest =>
    have hc : isDigitChar c = true := by
      apply hdig
      rw [hp]
      exact List.mem_cons_self c rest
    calc parseU32 (c :: rest)
        = parseU32go 0 (c :: rest) := by
          simp only [parseU32]
          rw [if_neg (isDigitChar_ne_plus hc)]
      _ = .ok v := by
          rw [← hp, parseU32go_ok _ 0 hdig (by rw [hval]; omega), hval]

theorem padded_eq_padLeft {p : Precision} (hp : p.fineCore) (x : Nat) :
    Metres.padded ⟨x⟩ p =
      padLeft (p.digits / 2) (decRender ((x % constants._100KM) / p.metres)) ∧
      (x % constants._100KM) / p.metres < 10 ^ (p.digits / 2) ∧
      (x % constants._100KM) / p.metres < U32LIM ∧ 1 ≤ p.digits / 2 := by
  rcases hp with rfl | rfl | rfl | rfl | rfl <;>
    refine ⟨rfl, ?_, ?_, by decide⟩ <;>
    simp only [Precision.metres, Precision.digits, constants._100KM,
      constants._10KM, constants._1KM, constants._100M, constants._10M,
      constants._1M, U32LIM] <;>
    norm_num <;> omega

theorem padded_props {p : Precision} (hp : p.fineCore) (x : Nat) :
    (Metres.padded ⟨x⟩ p).length = p.digits / 2 ∧
      (∀ c ∈ Metres.padded ⟨x⟩ p, isDigitChar c = true) ∧
      (∀ c ∈ Metres.padded ⟨x⟩ p, charFixed c = true) ∧
      parseU32 (Metres.padded ⟨x⟩ p) =
        .ok ((x % constants._100KM) / p.metres) := by
  obtain ⟨heq, hlt, hv, hw⟩ := padded_eq_padLeft hp x
  obtain ⟨h1, h2, h3, h4⟩ := padLeft_spec hw hlt hv
  rw [heq]
  exact ⟨h1, h2, h3, h4⟩

theorem parseHalf_of_parseU32 {cs : List Char} {v : Nat}
    (h : parseU32 cs = .ok v) : parseHalf cs = .ok v := by
  unfold parseHalf
  rw [h]

theorem digits_eval {s : List Char} {a b : Nat} {p : Precision} {w : Nat}
    (hw : (w = 1 ∧ p = ._10Km) ∨ (w = 2 ∧ p = ._1Km) ∨
      (w = 3 ∧ p = ._100M) ∨ (w = 4 ∧ p = ._10M) ∨ (w = 5 ∧ p = ._1M))
    (hlen : s.length = 2 * w)
    (ha : parseHalf (s.take w) = .ok a) (hb : parseHalf (s.drop w) = .ok b) :
    digits s = .ok (a * p.metres, b * p.metres, p) := by
  have hwge : 1 ≤ w := by
    rcases hw with ⟨h, _⟩ | ⟨h, _⟩ | ⟨h, _⟩ | ⟨h, _⟩ | ⟨h, _⟩ <;> omega
  have h2 : s.length / 2 = w := by omega
  have hne : s.isEmpty = false := by
    cases s with
    | nil => simp at hlen; omega
    | cons c rest => rfl
  unfold digits
  rw [h2, hne, ha, hb, hlen]
  rcases hw with ⟨rfl, rfl⟩ | ⟨rfl, rfl⟩ | ⟨rfl, rfl⟩ | ⟨rfl, rfl⟩ | ⟨rfl, rfl⟩ <;>
    rfl

theorem charFixed_split {c : Char} (h : charFixed c = true) :
    isAsciiWhitespace c = false ∧ toAsciiUppercase c = c := by
  unfold charFixed at h
  simp only [Bool.and_eq_true, Bool.not_eq_true', beq_iff_eq] at h
  exact h

theorem trim_string_fixed :
    ∀ {s : List Char}, (∀ c ∈ s, charFixed c = true) → trim_string s = s := by
  intro s
  induction s with
  | nil => intro _; rfl
  | cons c rest ih =>
    intro h
    obtain ⟨hw, hu⟩ := charFixed_split (h c (List.mem_cons_self c rest))
    have hrest := ih (fun x hx => h x (List.mem_cons_of_mem c hx))
    unfold trim_string at hrest ⊢
    rw [List.filter_cons, hw]
    simp only [Bool.not_false, if_true, List.map_cons, hu, hrest]

theorem digit_not_alpha {c : Char} (h : isDigitChar c = true) :
    isAsciiAlphabetic c = false := by
  simp only [isDigitChar, decide_eq_true_eq] at h
  simp only [isAsciiAlphabetic, decide_eq_false_iff_not]
  omega

theorem getLast?_some_mem :
    ∀ {l : List Char}, l ≠ [] → ∃ a, l.getLast? = some a ∧ a ∈ l := by
  intro l
  induction l with
  | nil => intro h; exact absurd rfl h
  | cons c rest ih =>
    intro _
    cases hr : rest with
    | nil => exact ⟨c, rfl, List.mem_cons_self c []⟩
    | cons d tl =>
      obtain ⟨a, ha, hm⟩ := ih (by rw [hr]; simp)
      refine ⟨a, ?_, List.mem_cons_of_mem c (hr ▸ hm)⟩
      rw [hr] at ha
      rw [List.getLast?_cons_cons]
      exact ha

theorem recon_ordinary {e m : Nat} (hm : m ∣ 100000) (hmod : e % m = 0) :
    (e / 100000) * 100000 + ((e % 100000) / m) * m = e := by
  have h1 := Nat.div_add_mod e 100000
  have hd : m ∣ e % 100000 :=
    (Nat.dvd_mod_iff hm).mpr (Nat.dvd_of_mod_eq_zero hmod)
  have h2 : ((e % 100000) / m) * m = e % 100000 := Nat.div_mul_cancel hd
  omega

theorem recon_tetrad {e : Nat} (hmod : e % 2000 = 0) :
    (e / 100000) * 100000 + ((e % 10000) / 2000) * 2000 +
      ((e % 100000) / 10000) * 10000 = e := by
  have h1 := Nat.div_add_mod e 100000
  have h2 := Nat.div_add_mod (e % 100000) 10000
  have h3 : e % 100000 % 10000 = e % 10000 :=
    Nat.mod_mod_of_dvd e (by norm_num)
  have h4 := Nat.div_add_mod (e % 10000) 2000
  have h5 : e % 10000 % 2000 = e % 2000 :=
    Nat.mod_mod_of_dvd e (by norm_num)
  omega

theorem getLast?_cons_ne {c : Char} {l : List Char} (h : l ≠ []) :
    (c :: l).getLast? = l.getLast? := by
  cases l with
  | nil => exact absurd rfl h
  | cons d tl => exact List.getLast?_cons_cons

theorem point_display_core {x y : Nat} {p : Precision} (hne2 : p ≠ ._2Km)
    {letter : Char}
    (hcs : coords_to_square (x / constants._100KM) (y / constants._100KM) =
      .ok letter) :
    Point.display? ⟨⟨x⟩, ⟨y⟩, p⟩ =
      some (letter :: (Metres.padded ⟨x⟩ p ++ Metres.padded ⟨y⟩ p)) := by
  unfold Point.display?
  dsimp only [Metres.inner]
  rw [hcs]
  dsimp only [Except.toOption, Option.bind]
  have hbind : ∀ (f : Char → Option (List Char)),
      (some letter >>= f) = f letter := fun _ => rfl
  rw [hbind]
  rw [if_neg hne2]
  rfl

theorem point_fromStr_core {x y : Nat} {p : Precision} (hp : p.fineCore)
    (hx : x < constants._500KM) (hy : y < constants._500KM)
    (hmx : x % p.metres = 0) (hmy : y % p.metres = 0) {letter : Char}
    (hsc : square_to_coords letter =
      .ok (x / constants._100KM, y / constants._100KM)) :
    Point.fromStr (letter :: (Metres.padded ⟨x⟩ p ++ Metres.padded ⟨y⟩ p)) =
      .ok ⟨⟨x⟩, ⟨y⟩, p⟩ := by
  obtain ⟨hlenE, hdigE, _, hparseE⟩ := padded_props hp x
  obtain ⟨hlenN, hdigN, _, hparseN⟩ := padded_props hp y
  have hw1 : 1 ≤ p.digits / 2 := (padded_eq_padLeft hp x).2.2.2
  have hBne : Metres.padded ⟨y⟩ p ≠ [] := by
    intro h
    rw [h] at hlenN
    simp at hlenN
    omega
  have hABne : Metres.padded ⟨x⟩ p ++ Metres.padded ⟨y⟩ p ≠ [] := by
    simp [hBne]
  obtain ⟨lc, hlast, hmem⟩ := getLast?_some_mem hABne
  have hlcdig : isDigitChar lc = true := by
    rcases List.mem_append.mp hmem with h | h
    exacts [hdigE lc h, hdigN lc h]
  have hlcalpha : isAsciiAlphabetic lc = false := digit_not_alpha hlcdig
  have hw : (p.digits / 2 = 1 ∧ p = ._10Km) ∨ (p.digits / 2 = 2 ∧ p = ._1Km) ∨
      (p.digits / 2 = 3 ∧ p = ._100M) ∨ (p.digits / 2 = 4 ∧ p = ._10M) ∨
      (p.digits / 2 = 5 ∧ p = ._1M) := by
    rcases hp with rfl | rfl | rfl | rfl | rfl
    · exact Or.inl ⟨by decide, rfl⟩
    · exact Or.inr (Or.inl ⟨by decide, rfl⟩)
    · exact Or.inr (Or.inr (Or.inl ⟨by decide, rfl⟩))
    · exact Or.inr (Or.inr (Or.inr (Or.inl ⟨by decide, rfl⟩)))
    · exact Or.inr (Or.inr (Or.inr (Or.inr ⟨by decide, rfl⟩)))
  have hlen2 : (Metres.padded ⟨x⟩ p ++ Metres.padded ⟨y⟩ p).length =
      2 * (p.digits / 2) := by
    rw [List.length_append, hlenE, hlenN]
    omega
  have ha : parseHalf ((Metres.padded ⟨x⟩ p ++ Metres.padded ⟨y⟩ p).take
      (p.digits / 2)) = .ok ((x % constants._100KM) / p.metres) := by
    rw [List.take_left' hlenE]
    exact parseHalf_of_parseU32 hparseE
  have hb : parseHalf ((Metres.padded ⟨x⟩ p ++ Metres.padded ⟨y⟩ p).drop
      (p.digits / 2)) = .ok ((y % constants._100KM) / p.metres) := by
    rw [List.drop_left' hlenE]
    exact parseHalf_of_parseU32 hparseN
  have hdigits := digits_eval hw hlen2 ha hb
  have hxeq : (x / constants._100KM) * constants._100KM +
      ((x % constants._100KM) / p.metres) * p.metres = x := by
    have hdvd : p.metres ∣ 100000 := by
      rcases hp with rfl | rfl | rfl | rfl | rfl <;> decide
    simp only [constants._100KM]
    exact recon_ordinary hdvd hmx
  have hyeq : (y / constants._100KM) * constants._100KM +
      ((y % constants._100KM) / p.metres) * p.metres = y := by
    have hdvd : p.metres ∣ 100000 := by
      rcases hp with rfl | rfl | rfl | rfl | rfl <;> decide
    simp only [constants._100KM]
    exact recon_ordinary hdvd hmy
  unfold Point.fromStr
  dsimp only
  rw [hsc]
  have hbind : ∀ (f : Nat × Nat → Except Error Point),
      ((Except.ok (x / constants._100KM, y / constants._100KM) :
        Except Error (Nat × Nat)) >>= f) =
        f (x / constants._100KM, y / constants._100KM) := fun _ => rfl
  rw [hbind]
  rw [getLast?_cons_ne hABne, hlast]
  dsimp only
  have hcond : ¬((letter :: (Metres.padded ⟨x⟩ p ++ Metres.padded ⟨y⟩ p)).length
      = 4 ∧ isAsciiAlphabetic lc = true) := by
    intro h
    rw [hlcalpha] at h
    exact absurd h.2 (by simp)
  rw [if_neg hcond]
  unfold Point.fromStrDigits
  rw [hdigits]
  have hbind2 : ∀ (f : Nat × Nat × Precision → Except Error Point)
      (v : Nat × Nat × Precision),
      ((Except.ok v : Except Error (Nat × Nat × Precision)) >>= f) = f v :=
    fun _ _ => rfl
  rw [hbind2]
  unfold Metres.tryFrom
  dsimp only
  rw [hxeq, hyeq]
  rw [if_neg (by omega), if_neg (by omega)]
  rfl

theorem point_fromStr_100Km {x y : Nat} (hx : x < constants._500KM)
    (hy : y < constants._500KM) (hmx : x % constants._100KM = 0)
    (hmy : y % constants._100KM = 0) {letter : Char}
    (hsc : square_to_coords letter =
      .ok (x / constants._100KM, y / constants._100KM)) :
    Point.fromStr [letter] = .ok ⟨⟨x⟩, ⟨y⟩, ._100Km⟩ := by
  have hxeq : x / constants._100KM * constants._100KM = x :=
    Nat.div_mul_cancel (Nat.dvd_of_mod_eq_zero hmx)
  have hyeq : y / constants._100KM * constants._100KM = y :=
    Nat.div_mul_cancel (Nat.dvd_of_mod_eq_zero hmy)
  unfold Point.fromStr
  dsimp only
  rw [hsc]
  have hbind : ∀ (f : Nat × Nat → Except Error Point),
      ((Except.ok (x / constants._100KM, y / constants._100KM) :
        Except Error (Nat × Nat)) >>= f) =
        f (x / constants._100KM, y / constants._100KM) := fun _ => rfl
  rw [hbind]
  rw [show ([letter] : List Char).getLast? = some letter from rfl]
  dsimp only
  rw [if_neg (by simp)]
  unfold Point.fromStrDigits
  rw [show digits ([] : List Char) = .ok (0, 0, ._100Km) from rfl]
  have hbind2 : ∀ (f : Nat × Nat × Precision → Except Error Point)
      (v : Nat × Nat × Precision),
      ((Except.ok v : Except Error (Nat × Nat × Precision)) >>= f) = f v :=
    fun _ _ => rfl
  rw [hbind2]
  unfold Metres.tryFrom
  dsimp only
  rw [Nat.add_zero, Nat.add_zero, hxeq, hyeq]
  rw [if_neg (by omega), if_neg (by omega)]
  rfl

theorem point_display_2Km {x y : Nat} {letter t : Char}
    (hcs : coords_to_square (x / constants._100KM) (y / constants._100KM) =
      .ok letter)
    (hct : coords_to_tetrad ((x % constants._10KM) / constants._2KM)
      ((y % constants._10KM) / constants._2KM) = .ok t) :
    Point.display? ⟨⟨x⟩, ⟨y⟩, ._2Km⟩ =
      some (letter :: (Metres.padded ⟨x⟩ ._10Km ++ Metres.padded ⟨y⟩ ._10Km ++
        [t])) := by
  unfold Point.display?
  dsimp only [Metres.inner]
  rw [hcs]
  dsimp only [Except.toOption]
  have hbind : ∀ (f : Char → Option (List Char)),
      (some letter >>= f) = f letter := fun _ => rfl
  rw [hbind]
  rw [if_pos rfl]
  rw [hct]
  dsimp only
  rfl

theorem point_fromStr_2Km {x y : Nat} (hx : x < constants._500KM)
    (hy : y < constants._500KM) (hmx : x % constants._2KM = 0)
    (hmy : y % constants._2KM = 0) {letter t : Char}
    (hsc : square_to_coords letter =
      .ok (x / constants._100KM, y / constants._100KM))
    (hst : tetrad_to_coords t =
      .ok ((x % constants._10KM) / constants._2KM,
        (y % constants._10KM) / constants._2KM))
    (halpha : isAsciiAlphabetic t = true) :
    Point.fromStr (letter :: (Metres.padded ⟨x⟩ ._10Km ++
      Metres.padded ⟨y⟩ ._10Km ++ [t])) = .ok ⟨⟨x⟩, ⟨y⟩, ._2Km⟩ := by
  have hfc : Precision.fineCore ._10Km := Or.inl rfl
  obtain ⟨hlenE, hdigE, _, hparseE⟩ := padded_props hfc x
  obtain ⟨hlenN, hdigN, _, hparseN⟩ := padded_props hfc y
  have hlenE1 : (Metres.padded ⟨x⟩ ._10Km).length = 1 := hlenE
  have hlenN1 : (Metres.padded ⟨y⟩ ._10Km).length = 1 := hlenN
  have hrest : Metres.padded ⟨x⟩ ._10Km ++ Metres.padded ⟨y⟩ ._10Km ++ [t] ≠
      [] := by simp
  have hlast : (Metres.padded ⟨x⟩ ._10Km ++ Metres.padded ⟨y⟩ ._10Km ++
      [t]).getLast? = some t := List.getLast?_concat _
  have hlen4 : (letter :: (Metres.padded ⟨x⟩ ._10Km ++
      Metres.padded ⟨y⟩ ._10Km ++ [t])).length = 4 := by
    simp [hlenE1, hlenN1]
  have hdl : (Metres.padded ⟨x⟩ ._10Km ++ Metres.padded ⟨y⟩ ._10Km ++
      [t]).dropLast = Metres.padded ⟨x⟩ ._10Km ++ Metres.padded ⟨y⟩ ._10Km :=
    List.dropLast_concat
  have hw : ((1 : Nat) = 1 ∧ Precision._10Km = Precision._10Km) ∨
      ((1 : Nat) = 2 ∧ Precision._10Km = ._1Km) ∨
      ((1 : Nat) = 3 ∧ Precision._10Km = ._100M) ∨
      ((1 : Nat) = 4 ∧ Precision._10Km = ._10M) ∨
      ((1 : Nat) = 5 ∧ Precision._10Km = ._1M) := Or.inl ⟨rfl, rfl⟩
  have hlen2 : (Metres.padded ⟨x⟩ ._10Km ++ Metres.padded ⟨y⟩ ._10Km).length =
      2 * 1 := by
    rw [List.length_append, hlenE1, hlenN1]
  have ha : parseHalf ((Metres.padded ⟨x⟩ ._10Km ++
      Metres.padded ⟨y⟩ ._10Km).take 1) =
      .ok ((x % constants._100KM) / Precision.metres ._10Km) := by
    rw [List.take_left' hlenE1]
    exact parseHalf_of_parseU32 hparseE
  have hb : parseHalf ((Metres.padded ⟨x⟩ ._10Km ++
      Metres.padded ⟨y⟩ ._10Km).drop 1) =
      .ok ((y % constants._100KM) / Precision.metres ._10Km) := by
    rw [List.drop_left' hlenE1]
    exact parseHalf_of_parseU32 hparseN
  have hdigits := digits_eval hw hlen2 ha hb
  unfold Point.fromStr
  dsimp only
  rw [hsc]
  have hbind : ∀ (f : Nat × Nat → Except Error Point),
      ((Except.ok (x / constants._100KM, y / constants._100KM) :
        Except Error (Nat × Nat)) >>= f) =
        f (x / constants._100KM, y / constants._100KM) := fun _ => rfl
  rw [hbind]
  rw [getLast?_cons_ne hrest, hlast]
  dsimp only
  rw [if_pos ⟨hlen4, halpha⟩]
  rw [hst]
  have hbindT : ∀ (f : Nat × Nat → Except Error Point),
      ((Except.ok ((x % constants._10KM) / constants._2KM,
        (y % constants._10KM) / constants._2KM) :
        Except Error (Nat × Nat)) >>= f) =
        f ((x % constants._10KM) / constants._2KM,
          (y % constants._10KM) / constants._2KM) := fun _ => rfl
  rw [hbindT]
  dsimp only
  rw [hdl, hdigits]
  have hbind2 : ∀ (f : Nat × Nat × Precision → Except Error Point)
      (v : Nat × Nat × Precision),
      ((Except.ok v : Except Error (Nat × Nat × Precision)) >>= f) = f v :=
    fun _ _ => rfl
  rw [hbind2]
  unfold Metres.tryFrom
  dsimp only
  have hmx' : x % 2000 = 0 := hmx
  have hmy' : y % 2000 = 0 := hmy
  have hxeq : x / constants._100KM * constants._100KM +
      x % constants._10KM / constants._2KM * constants._2KM +
      x % constants._100KM / Precision.metres ._10Km *
        Precision.metres ._10Km = x := recon_tetrad hmx'
  have hyeq : y / constants._100KM * constants._100KM +
      y % constants._10KM / constants._2KM * constants._2KM +
      y % constants._100KM / Precision.metres ._10Km *
        Precision.metres ._10Km = y := recon_tetrad hmy'
  rw [hxeq, hyeq]
  rw [if_neg (by omega), if_neg (by omega)]
  rfl

theorem point_rt_fine {x y : Nat} {p : Precision} (hp : p.fineCore)
    (hx : x < constants._500KM) (hy : y < constants._500KM)
    (hmx : x % p.metres = 0) (hmy : y % p.metres = 0) :
    ∃ s, Point.display? ⟨⟨x⟩, ⟨y⟩, p⟩ = some s ∧
      Point.fromStr s = .ok ⟨⟨x⟩, ⟨y⟩, p⟩ ∧
      ∀ c ∈ s, charFixed c = true := by
  have hx5 : x < 500000 := hx
  have hy5 : y < 500000 := hy
  have hcol : x / constants._100KM < 5 := by
    show x / 100000 < 5
    omega
  have hrow : y / constants._100KM < 5 := by
    show y / 100000 < 5
    omega
  obtain ⟨letter, hcs, hsc, hfixL, _⟩ := coords_square_roundtrip hcol hrow
  have hne2 : p ≠ ._2Km := by
    rcases hp with rfl | rfl | rfl | rfl | rfl <;> decide
  refine ⟨letter :: (Metres.padded ⟨x⟩ p ++ Metres.padded ⟨y⟩ p),
    point_display_core hne2 hcs, point_fromStr_core hp hx hy hmx hmy hsc, ?_⟩
  intro c hc
  rcases List.mem_cons.mp hc with rfl | hc2
  · exact hfixL
  rcases List.mem_append.mp hc2 with h | h
  · exact (padded_props hp x).2.2.1 c h
  · exact (padded_props hp y).2.2.1 c h

theorem point_rt_100Km {x y : Nat}
    (hx : x < constants._500KM) (hy : y < constants._500KM)
    (hmx : x % constants._100KM = 0) (hmy : y % constants._100KM = 0) :
    ∃ s, Point.display? ⟨⟨x⟩, ⟨y⟩, ._100Km⟩ = some s ∧
      Point.fromStr s = .ok ⟨⟨x⟩, ⟨y⟩, ._100Km⟩ ∧
      ∀ c ∈ s, charFixed c = true := by
  have hx5 : x < 500000 := hx
  have hy5 : y < 500000 := hy
  have hcol : x / constants._100KM < 5 := by
    show x / 100000 < 5
    omega
  have hrow : y / constants._100KM < 5 := by
    show y / 100000 < 5
    omega
  obtain ⟨letter, hcs, hsc, hfixL, _⟩ := coords_square_roundtrip hcol hrow
  have hdisp := point_display_core (p := ._100Km) (x := x) (y := y)
    (by decide) hcs
  rw [show Metres.padded ⟨x⟩ ._100Km = [] from rfl,
    show Metres.padded ⟨y⟩ ._100Km = [] from rfl] at hdisp
  refine ⟨[letter], by simpa using hdisp,
    point_fromStr_100Km hx hy hmx hmy hsc, ?_⟩
  intro c hc
  rcases List.mem_cons.mp hc with rfl | hc2
  · exact hfixL
  · exact absurd hc2 (by simp)

theorem point_rt_2Km {x y : Nat}
    (hx : x < constants._500KM) (hy : y < constants._500KM)
    (hmx : x % constants._2KM = 0) (hmy : y % constants._2KM = 0) :
    ∃ s, Point.display? ⟨⟨x⟩, ⟨y⟩, ._2Km⟩ = some s ∧
      Point.fromStr s = .ok ⟨⟨x⟩, ⟨y⟩, ._2Km⟩ ∧
      ∀ c ∈ s, charFixed c = true := by
  have hx5 : x < 500000 := hx
  have hy5 : y < 500000 := hy
  have hcol : x / constants._100KM < 5 := by
    show x / 100000 < 5
    omega
  have hrow : y / constants._100KM < 5 := by
    show y / 100000 < 5
    omega
  have htc : (x % constants._10KM) / constants._2KM < 5 := by
    show x % 10000 / 2000 < 5
    omega
  have htr : (y % constants._10KM) / constants._2KM < 5 := by
    show y % 10000 / 2000 < 5
    omega
  obtain ⟨letter, hcs, hsc, hfixL, _⟩ := coords_square_roundtrip hcol hrow
  obtain ⟨t, hct, hst, hfixT, halphaT⟩ := coords_tetrad_roundtrip htc htr
  refine ⟨letter :: (Metres.padded ⟨x⟩ ._10Km ++ Metres.padded ⟨y⟩ ._10Km ++
      [t]), point_display_2Km hcs hct,
    point_fromStr_2Km hx hy hmx hmy hsc hst halphaT, ?_⟩
  have hfc : Precision.fineCore ._10Km := Or.inl rfl
  intro c hc
  rcases List.mem_cons.mp hc with rfl | hc2
  · exact hfixL
  rcases List.mem_append.mp hc2 with h | h
  · rcases List.mem_append.mp h with h2 | h2
    · exact (padded_props hfc x).2.2.1 c h2
    · exact (padded_props hfc y).2.2.1 c h2
  · rw [List.mem_singleton.mp h]
    exact hfixT

theorem point_display_fromStr {pt : Point} (h : pt.WF) :
    ∃ s, pt.display? = some s ∧ Point.fromStr s = .ok pt ∧
      ∀ c ∈ s, charFixed c = true := by
  obtain ⟨⟨x⟩, ⟨y⟩, p⟩ := pt
  obtain ⟨hx, hy, hmx, hmy⟩ := h
  cases p with
  | _100Km => exact point_rt_100Km hx hy hmx hmy
  | _10Km => exact point_rt_fine (Or.inl rfl) hx hy hmx hmy
  | _2Km => exact point_rt_2Km hx hy hmx hmy
  | _1Km => exact point_rt_fine (Or.inr (Or.inl rfl)) hx hy hmx hmy
  | _100M => exact point_rt_fine (Or.inr (Or.inr (Or.inl rfl))) hx hy hmx hmy
  | _10M =>
    exact point_rt_fine (Or.inr (Or.inr (Or.inr (Or.inl rfl)))) hx hy hmx hmy
  | _1M =>
    exact point_rt_fine (Or.inr (Or.inr (Or.inr (Or.inr rfl)))) hx hy hmx hmy

theorem trunc_mod_zero (a m : Nat) : (a - a % m) % m = 0 := by
  rcases Nat.eq_zero_or_pos m with h | h
  · simp [h]
  · have h2 := Nat.div_add_mod a m
    have h3 : a - a % m = m * (a / m) := by omega
    rw [h3]
    exact Nat.mul_mod_right m _

theorem point_new_wf {a b : Nat} {p : Precision}
    (ha : a < constants._500KM) (hb : b < constants._500KM) :
    (Point.new ⟨a⟩ ⟨b⟩ p).WF := by
  unfold Point.new Metres.precision Point.WF
  dsimp only
  refine ⟨?_, ?_, trunc_mod_zero a p.metres, trunc_mod_zero b p.metres⟩
  · omega
  · omega

theorem tryFrom_ok_inv {v : Nat} {m : Metres}
    (h : Metres.tryFrom v = .ok m) : m = ⟨v⟩ ∧ v < constants._500KM := by
  unfold Metres.tryFrom at h
  by_cases hb : v ≥ constants._500KM
  · rw [if_pos hb] at h
    exact absurd h (by simp)
  · rw [if_neg hb] at h
    simp only [Except.ok.injEq] at h
    exact ⟨h.symm, by omega⟩

theorem osgb_new_ok_inv {e n : Nat} {p : Precision} {r : OSGB}
    (h : OSGB.new e n p = .ok r) :
    r = ⟨((e + OFFSET_EAST) % U32LIM) / constants._500KM,
      ((n + OFFSET_NORTH) % U32LIM) / constants._500KM,
      Point.new ⟨e % constants._500KM⟩ ⟨n % constants._500KM⟩ p⟩ ∧
    r.square_500k_east < 5 ∧ r.square_500k_north < 5 := by
  unfold OSGB.new at h
  dsimp only at h
  cases hcs : coords_to_square (((e + OFFSET_EAST) % U32LIM) / constants._500KM)
      (((n + OFFSET_NORTH) % U32LIM) / constants._500KM) with
  | error err =>
    rw [hcs] at h
    exact absurd h (by simp [Bind.bind, Except.bind])
  | ok square =>
    rw [hcs] at h
    have hbind : ∀ (f : Char → Except Error OSGB),
        ((Except.ok square : Except Error Char) >>= f) = f square :=
      fun _ => rfl
    rw [hbind] at h
    by_cases hw : (['S', 'T', 'N', 'O', 'H'].contains square) = false
    · rw [if_pos hw] at h
      exact absurd h (by simp)
    · rw [if_neg hw] at h
      unfold Metres.tryFrom at h
      have he : e % constants._500KM < constants._500KM :=
        Nat.mod_lt _ (by decide)
      have hn : n % constants._500KM < constants._500KM :=
        Nat.mod_lt _ (by decide)
      rw [if_neg (by omega), if_neg (by omega)] at h
      have hred : ∀ (f : Metres → Except Error OSGB) (v : Metres),
          ((Except.ok v : Except Error Metres) >>= f) = f v := fun _ _ => rfl
      rw [hred, hred] at h
      simp only [Except.ok.injEq] at h
      obtain ⟨hb1, hb2⟩ := coords_to_grid_ok_bounds hcs
      subst h
      exact ⟨rfl, hb1, hb2⟩

theorem osgb_new_wf {e n : Nat} {p : Precision} {r : OSGB}
    (h : OSGB.new e n p = .ok r) : r.WF := by
  obtain ⟨heq, hb1, hb2⟩ := osgb_new_ok_inv h
  refine ⟨hb1, hb2, ?_⟩
  rw [heq]
  exact point_new_wf (Nat.mod_lt _ (by decide)) (Nat.mod_lt _ (by decide))

theorem exbind_ok_inv {ε α β : Type} {e : Except ε α} {f : α → Except ε β}
    {b : β} (h : (e >>= f) = .ok b) : ∃ a, e = .ok a ∧ f a = .ok b := by
  cases e with
  | error err => exact absurd h (by simp [Bind.bind, Except.bind])
  | ok a => exact ⟨a, rfl, h⟩

theorem obind_some_inv {α β : Type} {o : Option α} {f : α → Option β}
    {b : β} (h : (o >>= f) = some b) : ∃ a, o = some a ∧ f a = some b := by
  cases o with
  | none => exact absurd h (by simp)
  | some a => exact ⟨a, rfl, h⟩

theorem point_new_bounded {a b : Metres} {p : Precision}
    (ha : a.val < constants._500KM) (hb : b.val < constants._500KM) :
    (Point.new a b p).Bounded := by
  unfold Point.new Metres.precision Point.Bounded
  dsimp only
  constructor
  · omega
  · omega

theorem fromStrDigits_bounded {a b : Nat} {rest : List Char} {pt : Point}
    (h : Point.fromStrDigits a b rest = .ok pt) : pt.Bounded := by
  unfold Point.fromStrDigits at h
  obtain ⟨trip, hdg, h2⟩ := exbind_ok_inv h
  obtain ⟨e', n', p'⟩ := trip
  dsimp only at h2
  obtain ⟨em, htf, h3⟩ := exbind_ok_inv h2
  obtain ⟨nm, htf2, h4⟩ := exbind_ok_inv h3
  simp only [Except.ok.injEq] at h4
  subst h4
  obtain ⟨he, hbe⟩ := tryFrom_ok_inv htf
  obtain ⟨hn, hbn⟩ := tryFrom_ok_inv htf2
  subst he
  subst hn
  exact ⟨hbe, hbn⟩

theorem point_fromStr_bounded {s : List Char} {pt : Point}
    (h : Point.fromStr s = .ok pt) : pt.Bounded := by
  unfold Point.fromStr at h
  cases s with
  | nil => exact absurd h (by simp)
  | cons c rest =>
    dsimp only at h
    obtain ⟨pr, hsc, h2⟩ := exbind_ok_inv h
    obtain ⟨col, row⟩ := pr
    dsimp only at h2
    cases hlast : (c :: rest).getLast? with
    | none =>
      rw [hlast] at h2
      exact fromStrDigits_bounded h2
    | some lc =>
      rw [hlast] at h2
      dsimp only at h2
      by_cases hcond : (c :: rest).length = 4 ∧ isAsciiAlphabetic lc = true
      · rw [if_pos hcond] at h2
        obtain ⟨tpr, hct, h3⟩ := exbind_ok_inv h2
        obtain ⟨tc, tr⟩ := tpr
        dsimp only at h3
        obtain ⟨trip, hdg, h4⟩ := exbind_ok_inv h3
        obtain ⟨e', n', p'⟩ := trip
        dsimp only at h4
        obtain ⟨em, htf, h5⟩ := exbind_ok_inv h4
        obtain ⟨nm, htf2, h6⟩ := exbind_ok_inv h5
        simp only [Except.ok.injEq] at h6
        subst h6
        obtain ⟨he, hbe⟩ := tryFrom_ok_inv htf
        obtain ⟨hn, hbn⟩ := tryFrom_ok_inv htf2
        subst he
        subst hn
        exact ⟨hbe, hbn⟩
      · rw [if_neg hcond] at h2
        exact fromStrDigits_bounded h2

theorem point_display_isSome {pt : Point} (h : pt.Bounded) :
    ∃ s, pt.display? = some s := by
  obtain ⟨⟨x⟩, ⟨y⟩, p⟩ := pt
  obtain ⟨hx, hy⟩ := h
  have hx5 : x < 500000 := hx
  have hy5 : y < 500000 := hy
  have hcol : x / constants._100KM < 5 := by
    show x / 100000 < 5
    omega
  have hrow : y / constants._100KM < 5 := by
    show y / 100000 < 5
    omega
  obtain ⟨letter, hcs, _, _, _⟩ := coords_square_roundtrip hcol hrow
  by_cases hp : p = ._2Km
  · subst hp
    have htc : (x % constants._10KM) / constants._2KM < 5 := by
      show x % 10000 / 2000 < 5
      omega
    have htr : (y % constants._10KM) / constants._2KM < 5 := by
      show y % 10000 / 2000 < 5
      omega
    obtain ⟨t, hct, _, _, _⟩ := coords_tetrad_roundtrip htc htr
    exact ⟨_, point_display_2Km hcs hct⟩
  · exact ⟨_, point_display_core hp hcs⟩

theorem point_display_some_bounded {pt : Point} {s : List Char}
    (h : pt.display? = some s) : pt.Bounded := by
  unfold Point.display? at h
  dsimp only at h
  obtain ⟨letter, hcs, _⟩ := obind_some_inv h
  cases hc : coords_to_square (pt.eastings.inner / constants._100KM)
      (pt.northings.inner / constants._100KM) with
  | error err => rw [hc] at hcs; exact absurd hcs (by simp [Except.toOption])
  | ok ch =>
    obtain ⟨h1, h2⟩ := coords_to_grid_ok_bounds hc
    have hx : pt.eastings.inner < 500000 := by
      have : pt.eastings.inner / constants._100KM < 5 := h1
      have h5 : pt.eastings.inner / 100000 < 5 := this
      omega
    have hy : pt.northings.inner < 500000 := by
      have : pt.northings.inner / constants._100KM < 5 := h2
      have h5 : pt.northings.inner / 100000 < 5 := this
      omega
    exact ⟨hx, hy⟩

theorem osgb_display_eq {r : OSGB} {ch : Char} {ps : List Char}
    (hcs : coords_to_square r.square_500k_east r.square_500k_north = .ok ch)
    (hpd : r.point.display? = some ps) :
    OSGB.display? r = some (ch :: ps) := by
  unfold OSGB.display?
  rw [hcs]
  dsimp only [Except.toOption]
  have hbind : ∀ (f : Char → Option (List Char)),
      (some ch >>= f) = f ch := fun _ => rfl
  rw [hbind, hpd]
  rfl

theorem osgb_display_isSome {r : OSGB} (h : r.Bounded) :
    ∃ s, OSGB.display? r = some s := by
  obtain ⟨h1, h2, h3⟩ := h
  obtain ⟨ch, hcs, _, _, _⟩ := coords_square_roundtrip h1 h2
  obtain ⟨ps, hpd⟩ := point_display_isSome h3
  exact ⟨ch :: ps, osgb_display_eq hcs hpd⟩

theorem osgb_display_some_bounded {r : OSGB} {s : List Char}
    (h : OSGB.display? r = some s) : r.Bounded := by
  unfold OSGB.display? at h
  obtain ⟨ch, hcs, h2⟩ := obind_some_inv h
  obtain ⟨ps, hpd, _⟩ := obind_some_inv h2
  cases hc : coords_to_square r.square_500k_east r.square_500k_north with
  | error err =>
    rw [hc] at hcs
    exact absurd hcs (by simp [Except.toOption])
  | ok ch2 =>
    obtain ⟨hb1, hb2⟩ := coords_to_grid_ok_bounds hc
    exact ⟨hb1, hb2, point_display_some_bounded hpd⟩

theorem osgb_recalc_bounded {r : OSGB} {p : Precision} (h : r.Bounded) :
    (r.recalculate p).Bounded := by
  unfold OSGB.recalculate
  by_cases hc : r.point.precision.rank < p.rank
  · rw [if_pos hc]
    exact h
  · rw [if_neg hc]
    exact ⟨h.1, h.2.1, point_new_bounded h.2.2.1 h.2.2.2⟩

theorem osgb_fromStr_bounded {s : List Char} {r : OSGB}
    (h : OSGB.fromStr s = .ok r) : r.Bounded := by
  unfold OSGB.fromStr at h
  cases ht : trim_string s with
  | nil => rw [ht] at h; exact absurd h (by simp)
  | cons c rest =>
    rw [ht] at h
    dsimp only at h
    obtain ⟨pr, hsc, h2⟩ := exbind_ok_inv h
    obtain ⟨a, b⟩ := pr
    dsimp only at h2
    obtain ⟨pt, hpt, h3⟩ := exbind_ok_inv h2
    simp only [Except.ok.injEq] at h3
    subst h3
    obtain ⟨hb1, hb2⟩ := grid_to_coords_ok_bounds (by decide) hsc
    exact ⟨hb1, hb2, point_fromStr_bounded hpt⟩

theorem osgb_display_fromStr {r : OSGB} (h : r.WF) :
    ∃ s, OSGB.display? r = some s ∧ OSGB.fromStr s = .ok r := by
  obtain ⟨se, sn, pt⟩ := r
  obtain ⟨h1, h2, h3⟩ := h
  obtain ⟨ps, hpd, hpp, hfix⟩ := point_display_fromStr h3
  obtain ⟨sq, hcs, hsc, hfixSq, _⟩ := coords_square_roundtrip h1 h2
  refine ⟨sq :: ps, osgb_display_eq hcs hpd, ?_⟩
  have htrim : trim_string (sq :: ps) = sq :: ps := by
    apply trim_string_fixed
    intro c hc
    rcases List.mem_cons.mp hc with rfl | hc2
    · exact hfixSq
    · exact hfix c hc2
  unfold OSGB.fromStr
  rw [htrim]
  dsimp only
  rw [hsc]
  have hbind : ∀ (f : Nat × Nat → Except Error OSGB),
      ((Except.ok (se, sn) : Except Error (Nat × Nat)) >>= f) = f (se, sn) :=
    fun _ => rfl
  rw [hbind]
  dsimp only
  rw [hpp]
  rfl

theorem osi_new_bounded {e n : Nat} {p : Precision} {r : OSI}
    (h : OSI.new e n p = .ok r) : r.point.Bounded := by
  unfold OSI.new at h
  obtain ⟨em, htf, h2⟩ := exbind_ok_inv h
  obtain ⟨nm, htf2, h3⟩ := exbind_ok_inv h2
  simp only [Except.ok.injEq] at h3
  subst h3
  obtain ⟨he, hbe⟩ := tryFrom_ok_inv htf
  obtain ⟨hn, hbn⟩ := tryFrom_ok_inv htf2
  subst he
  subst hn
  exact point_new_bounded hbe hbn

theorem osi_fromStr_bounded {s : List Char} {r : OSI}
    (h : OSI.fromStr s = .ok r) : r.point.Bounded := by
  unfold OSI.fromStr at h
  obtain ⟨pt, hpt, h2⟩ := exbind_ok_inv h
  simp only [Except.ok.injEq] at h2
  subst h2
  exact point_fromStr_bounded hpt

theorem osi_recalc_bounded {r : OSI} {p : Precision} (h : r.point.Bounded) :
    ((r.recalculate p).point).Bounded := by
  unfold OSI.recalculate
  by_cases hc : r.point.precision.rank < p.rank
  · rw [if_pos hc]
    exact h
  · rw [if_neg hc]
    exact point_new_bounded h.1 h.2

/-- C1: for every eastings `e`, northings `n` and precision `p` such that
`OSGB::new(e, n, p)` succeeds with reference `r`, formatting `r`, parsing
that string back with `OSGB::from_str`, and formatting again yields the
same string as formatting `r` directly (and every formatting step
succeeds).  In fact the parse returns `r` itself. -/
theorem osgb_format_parse_format_c1 (e n : Nat) (p : Precision) (r : OSGB)
    (h : OSGB.new e n p = .ok r) :
    ∃ s r2, OSGB.display? r = some s ∧ OSGB.fromStr s = .ok r2 ∧
      OSGB.display? r2 = some s := by
  obtain ⟨s, hd, hp⟩ := osgb_display_fromStr (osgb_new_wf h)
  exact ⟨s, r, hd, hp, hd⟩

/-- C1 witness: the round trip at `(389200, 243700, 100 m)`, the spec's
worked example `SO892437`. -/
theorem osgb_format_parse_format_c1_witness :
    ∃ s r2, OSGB.display? ⟨2, 1, ⟨⟨389200⟩, ⟨243700⟩, ._100M⟩⟩ = some s ∧
      OSGB.fromStr s = .ok r2 ∧ OSGB.display? r2 = some s :=
  osgb_format_parse_format_c1 389200 243700 ._100M _ (by decide)

/-- C2 counterexample: `OSGB::from_str` does not check the 500 km
whitelist: parsing `"AV"` succeeds although its super-square letter `A` is
outside `{S, T, N, O, H}`. -/
theorem osgb_parse_whitelist_c2_counterexample :
    OSGB.fromStr ("AV".toList) = .ok ⟨0, 4, ⟨⟨0⟩, ⟨0⟩, ._100Km⟩⟩ ∧
      (['S', 'T', 'N', 'O', 'H'].contains 'A') = false ∧
      coords_to_square 0 4 = .ok 'A' :=
  ⟨by decide, by decide, by decide⟩

/-- C2 (amended): constructing via `OSGB::new` a reference whose 500 km
super-square resolves to a letter outside `{S, T, N, O, H}` fails with a
parse error naming the letter; parsing via `OSGB::from_str` performs no
such check. -/
theorem osgb_new_whitelist_c2 (e n : Nat) (p : Precision) (c : Char)
    (hc : coords_to_square (((e + OFFSET_EAST) % U32LIM) / constants._500KM)
      (((n + OFFSET_NORTH) % U32LIM) / constants._500KM) = .ok c)
    (hw : (['S', 'T', 'N', 'O', 'H'].contains c) = false) :
    OSGB.new e n p = .error (.ParseError (String.singleton c ++
      " is not a supported 500km square.")) := by
  unfold OSGB.new
  dsimp only
  rw [hc]
  have hbind : ∀ (f : Char → Except Error OSGB),
      ((Except.ok c : Except Error Char) >>= f) = f c := fun _ => rfl
  rw [hbind]
  rw [if_pos hw]

/-- C2 witness: `OSGB::new(1000000, 0, 1m)` resolves to super-square `U`
and is rejected with the error naming `U`. -/
theorem osgb_new_whitelist_c2_witness :
    OSGB.new 1000000 0 ._1M = .error (.ParseError (String.singleton 'U' ++
      " is not a supported 500km square.")) :=
  osgb_new_whitelist_c2 1000000 0 ._1M 'U' (by decide) (by decide)

/-- C3: the no-panic rule is the spec's stated intent, but the code
violates it on caller-supplied input: `utils::digits` splits its input at
the byte midpoint with `str::split_at` and no boundary check, so
`OSI::from_str("N²")` — and `OSGB::from_str("SN²")` — reach
`digits("²")` (byte length 2, even, non-empty) and panic inside
`str::split_at` in every build profile; with overflow checks enabled
`OSGB::new(u32::MAX, 0, _)` additionally panics on the super-square
offset addition.  The byte-faithful models return `none` (the panic) at
exactly these inputs. -/
theorem panic_reachable_c3 :
    digitsB ("²".toList) = none ∧
    OSI.fromStrB ("N²".toList) = none ∧
    OSGB.fromStrB ("SN²".toList) = none ∧
    OSGB.newChecked 4294967295 0 ._1M = none ∧ 4294967295 < U32LIM :=
  ⟨by decide, by decide, by decide, by decide, by decide⟩

/-- With overflow checks (debug profile), the super-square offset addition
`eastings + OFFSET_EAST` in `OSGB::new` overflows `u32` at
`eastings = u32::MAX`, a caller-suppliable input. -/
theorem osgb_new_overflow_checked :
    OSGB.newChecked 4294967295 0 ._1M = none ∧ 4294967295 < U32LIM :=
  ⟨by decide, by decide⟩

/-- The internal `unwrap`s used when formatting are invariant-backed: any
`OSGB` or `OSI` obtained from `new`, from `from_str`, or by recalculating
such a value, formats successfully. -/
theorem display_unwrap_safe :
    (∀ (e n : Nat) (p : Precision) (r : OSGB), OSGB.new e n p = .ok r →
      (OSGB.display? r).isSome = true) ∧
    (∀ (s : List Char) (r : OSGB), OSGB.fromStr s = .ok r →
      (OSGB.display? r).isSome = true) ∧
    (∀ (r : OSGB) (p : Precision), (OSGB.display? r).isSome = true →
      (OSGB.display? (r.recalculate p)).isSome = true) ∧
    (∀ (e n : Nat) (p : Precision) (r : OSI), OSI.new e n p = .ok r →
      (OSI.display? r).isSome = true) ∧
    (∀ (s : List Char) (r : OSI), OSI.fromStr s = .ok r →
      (OSI.display? r).isSome = true) ∧
    (∀ (r : OSI) (p : Precision), (OSI.display? r).isSome = true →
      (OSI.display? (r.recalculate p)).isSome = true) := by
  refine ⟨?_, ?_, ?_, ?_, ?_, ?_⟩
  · intro e n p r h
    have hw := osgb_new_wf h
    obtain ⟨s, hs⟩ := osgb_display_isSome ⟨hw.1, hw.2.1, hw.2.2.1, hw.2.2.2.1⟩
    rw [hs]
    rfl
  · intro s r h
    obtain ⟨t, ht⟩ := osgb_display_isSome (osgb_fromStr_bounded h)
    rw [ht]
    rfl
  · intro r p h
    obtain ⟨s, hs⟩ := Option.isSome_iff_exists.mp h
    obtain ⟨t, ht⟩ :=
      osgb_display_isSome (osgb_recalc_bounded (osgb_display_some_bounded hs))
    rw [ht]
    rfl
  · intro e n p r h
    obtain ⟨s, hs⟩ := point_display_isSome (osi_new_bounded h)
    show (r.point.display?).isSome = true
    rw [hs]
    rfl
  · intro s r h
    obtain ⟨t, ht⟩ := point_display_isSome (osi_fromStr_bounded h)
    show (r.point.display?).isSome = true
    rw [ht]
    rfl
  · intro r p h
    obtain ⟨s, hs⟩ := Option.isSome_iff_exists.mp h
    obtain ⟨t, ht⟩ :=
      point_display_isSome (osi_recalc_bounded (point_display_some_bounded hs))
    show ((r.recalculate p).point.display?).isSome = true
    rw [ht]
    rfl

/-- The constructed reference `SO892437` formats successfully. -/
theorem display_unwrap_safe_witness :
    (OSGB.display? ⟨2, 1, ⟨⟨389200⟩, ⟨243700⟩, ._100M⟩⟩).isSome = true :=
  display_unwrap_safe.1 389200 243700 ._100M _ (by decide)

/-- C4: recalculating a British reference to a finer precision
(`p.rank` above the current rank) returns the value unchanged; otherwise
the super-square is kept and both coordinates are truncated to `p`, which
becomes the new precision.  Concretely, parsing `"SO892437"` and
recalculating to 10 km formats to `"SO84"`. -/
theorem osgb_recalculate_c4 :
    (∀ (r : OSGB) (p : Precision),
      OSGB.recalculate r p =
        if r.point.precision.rank < p.rank then r
        else ⟨r.square_500k_east, r.square_500k_north,
          ⟨⟨r.point.eastings.val - r.point.eastings.val % p.metres⟩,
           ⟨r.point.northings.val - r.point.northings.val % p.metres⟩, p⟩⟩) ∧
    (∃ r : OSGB, OSGB.fromStr ("SO892437".toList) = .ok r ∧
      OSGB.display? (r.recalculate ._10Km) = some ("SO84".toList)) := by
  constructor
  · intro r p
    rfl
  · exact ⟨⟨2, 1, ⟨⟨389200⟩, ⟨243700⟩, ._100M⟩⟩, by decide, by decide⟩

/-- C5 counterexample: the digit splitter succeeds on `"+1+2"`, which is
not a digit-only string (Rust's `u32` parse accepts a leading `'+'`), so
"succeeds only on digit strings" fails as stated. -/
theorem digits_plus_c5_counterexample :
    digitsB ("+1+2".toList) = some (.ok (1000, 2000, ._1Km)) ∧
      ("+1+2".toList.all isDigitChar) = false :=
  ⟨by decide, by decide⟩

/-- C5 (amended): the digit splitter measures length in bytes.  It rejects
every input of odd byte length or byte length greater than 10 — before any
splitting, so no panic can preempt this — with a parse error naming the
offending byte length and the supported set {0, 2, 4, 6, 8, 10}; it
succeeds only on inputs of byte length 0, 2, 4, 6, 8 or 10, and those only
when both halves parse as unsigned integers (which may carry a leading
`'+'`, so not only on digit-only strings; an in-range even byte length
whose midpoint falls inside a multi-byte character panics instead of
returning).  Parsing `"TL123"` on the British grid fails with the
digit-count error naming length 3. -/
theorem digits_length_legality_c5 :
    (∀ s : List Char, byteLen s % 2 = 1 ∨ byteLen s > 10 →
      digitsB s = some (.error (.ParseError (digitCountMsg (byteLen s))))) ∧
    (∀ (s : List Char) (v : Nat × Nat × Precision),
      digitsB s = some (.ok v) →
      byteLen s = 0 ∨ byteLen s = 2 ∨ byteLen s = 4 ∨ byteLen s = 6 ∨
        byteLen s = 8 ∨ byteLen s = 10) ∧
    OSGB.fromStrB ("TL123".toList) =
      some (.error (.ParseError (digitCountMsg 3))) := by
  have hbad : ∀ s : List Char, byteLen s % 2 = 1 ∨ byteLen s > 10 →
      digitsB s = some (.error (.ParseError (digitCountMsg (byteLen s)))) := by
    intro s h
    unfold digitsB
    rw [if_pos ?_]
    rcases h with h | h
    · right
      omega
    · left
      omega
  refine ⟨hbad, ?_, by decide⟩
  intro s v h
  by_cases hlen : byteLen s % 2 = 1 ∨ byteLen s > 10
  · rw [hbad s hlen] at h
    exact absurd h (by simp)
  · push_neg at hlen
    omega

/-- C5 witness: `"123"` (byte length 3) is rejected with the error naming
length 3 and the supported set. -/
theorem digits_length_legality_c5_witness :
    digitsB ("123".toList) =
      some (.error (.ParseError (digitCountMsg 3))) :=
  digits_length_legality_c5.1 _ (Or.inl (by decide))

/-- C6: with the tetrad feature enabled, parsing `"N24R"` yields the point
(226000, 242000) at the 2 km pseudo-precision, and formatting that point
yields `"N24R"` again. -/
theorem tetrad_N24R_c6 :
    Point.fromStr ("N24R".toList) = .ok ⟨⟨226000⟩, ⟨242000⟩, ._2Km⟩ ∧
      Point.display? ⟨⟨226000⟩, ⟨242000⟩, ._2Km⟩ = some ("N24R".toList) :=
  ⟨by decide, by decide⟩

/-- C7: for every in-bounds metres value `x` and precision `p`, truncation
equals `x - (x mod p.metres())`; it never fails, it is idempotent, it never
exceeds `x`, and it stays in bounds. -/
theorem metres_truncate_c7 (x : Nat) (p : Precision)
    (h : x < constants._500KM) :
    Metres.precision ⟨x⟩ p = ⟨x - x % p.metres⟩ ∧
      Metres.precision (Metres.precision ⟨x⟩ p) p = Metres.precision ⟨x⟩ p ∧
      (Metres.precision ⟨x⟩ p).val ≤ x ∧
      (Metres.precision ⟨x⟩ p).val < constants._500KM := by
  refine ⟨rfl, ?_, ?_, ?_⟩
  · have h2 := trunc_mod_zero x p.metres
    unfold Metres.precision
    dsimp only
    rw [h2, Nat.sub_zero]
  · show x - x % p.metres ≤ x
    omega
  · show x - x % p.metres < constants._500KM
    omega

/-- C7 witness: truncating 23480 m to 1 km. -/
theorem metres_truncate_c7_witness :
    Metres.precision ⟨23480⟩ ._1Km = ⟨23480 - 23480 % Precision.metres ._1Km⟩ ∧
      Metres.precision (Metres.precision ⟨23480⟩ ._1Km) ._1Km =
        Metres.precision ⟨23480⟩ ._1Km ∧
      (Metres.precision ⟨23480⟩ ._1Km).val ≤ 23480 ∧
      (Metres.precision ⟨23480⟩ ._1Km).val < constants._500KM :=
  metres_truncate_c7 23480 ._1Km (by decide)

/-- C8: for every in-bounds metres value and every precision of the spec's
six-level enumeration, digit rendering returns the empty string at the
coarsest precision, and otherwise the decimal rendering of
`(raw mod 100000) / p.metres()` zero-padded on the left to exactly
`p.digits() / 2` characters. -/
theorem metres_padded_c8 (x : Nat) (p : Precision)
    (hx : x < constants._500KM) (hp : p ≠ ._2Km) :
    (p = ._100Km → Metres.padded ⟨x⟩ p = []) ∧
    (p ≠ ._100Km →
      Metres.padded ⟨x⟩ p =
        padLeft (p.digits / 2)
          (decRender ((x % constants._100KM) / p.metres)) ∧
      (Metres.padded ⟨x⟩ p).length = p.digits / 2) := by
  constructor
  · intro h
    subst h
    rfl
  · intro h
    have hfc : p.fineCore := by
      cases p
      · exact absurd rfl h
      · exact Or.inl rfl
      · exact absurd rfl hp
      · exact Or.inr (Or.inl rfl)
      · exact Or.inr (Or.inr (Or.inl rfl))
      · exact Or.inr (Or.inr (Or.inr (Or.inl rfl)))
      · exact Or.inr (Or.inr (Or.inr (Or.inr rfl)))
    obtain ⟨heq, hlt, hv, hw⟩ := padded_eq_padLeft hfc x
    refine ⟨heq, ?_⟩
    rw [heq]
    exact (padLeft_spec hw hlt hv).1

/-- C8 witness: 200250 m at 10 m precision renders as the four characters
`0025`. -/
theorem metres_padded_c8_witness :
    ((._100M : Precision) = ._100Km →
      Metres.padded ⟨200250⟩ ._100M = []) ∧
    ((._100M : Precision) ≠ ._100Km →
      Metres.padded ⟨200250⟩ ._100M =
        padLeft (Precision.digits ._100M / 2)
          (decRender ((200250 % constants._100KM) /
            Precision.metres ._100M)) ∧
      (Metres.padded ⟨200250⟩ ._100M).length =
        Precision.digits ._100M / 2) :=
  metres_padded_c8 200250 ._100M (by decide) (by decide)

/-- C9: for all column and row in `[0, 5)`, converting coordinates to a
letter of the primary grid and back is the identity, over all 25 cells. -/
theorem grid_bijection_c9 (column : Nat) (h1 : column < 5) (row : Nat)
    (h2 : row < 5) :
    (coords_to_square column row).bind square_to_coords =
      .ok (column, row) := by
  obtain ⟨ch, hcs, hsc, _, _⟩ := coords_square_roundtrip h1 h2
  rw [hcs]
  simpa [Except.bind] using hsc

/-- C9 witness: the cell `(1, 3)` (letter `G`). -/
theorem grid_bijection_c9_witness :
    (coords_to_square 1 3).bind square_to_coords = .ok (1, 3) :=
  grid_bijection_c9 1 (by decide) 3 (by decide)

/-- C10: the digit parser accepts any even-length suffix of at most 10
characters whose two halves each parse as a Rust unsigned integer, which
includes halves with a leading `'+'`: parsing `"S+1+2"` as an Irish-grid
reference succeeds and yields the same reference as parsing `"S0102"`. -/
theorem digits_plus_sign_c10 :
    (∀ (s : List Char) (a b : Nat), s.length ≤ 10 → s.length % 2 = 0 →
      parseU32 (s.take (s.length / 2)) = .ok a →
      parseU32 (s.drop (s.length / 2)) = .ok b →
      ∃ v, digits s = .ok v) ∧
    OSI.fromStr ("S+1+2".toList) = .ok ⟨⟨⟨201000⟩, ⟨102000⟩, ._1Km⟩⟩ ∧
    OSI.fromStr ("S0102".toList) = .ok ⟨⟨⟨201000⟩, ⟨102000⟩, ._1Km⟩⟩ := by
  refine ⟨?_, by decide, by decide⟩
  intro s a b hlen heven ha hb
  have hhalfE := parseHalf_of_parseU32 ha
  have hhalfN := parseHalf_of_parseU32 hb
  cases hs : s.length with
  | zero =>
    rw [hs] at ha
    rw [show (0 : Nat) / 2 = 0 from rfl, List.take_zero] at ha
    exact absurd ha (by simp [parseU32])
  | succ k =>
    have hlen2 : s.length = 2 * (s.length / 2) := by omega
    have hw5 : s.length = 2 ∨ s.length = 4 ∨ s.length = 6 ∨ s.length = 8 ∨
        s.length = 10 := by omega
    rcases hw5 with h | h | h | h | h
    · exact ⟨_, digits_eval (p := ._10Km) (Or.inl ⟨by omega, rfl⟩) hlen2
        hhalfE hhalfN⟩
    · exact ⟨_, digits_eval (p := ._1Km) (Or.inr (Or.inl ⟨by omega, rfl⟩))
        hlen2 hhalfE hhalfN⟩
    · exact ⟨_, digits_eval (p := ._100M)
        (Or.inr (Or.inr (Or.inl ⟨by omega, rfl⟩))) hlen2 hhalfE hhalfN⟩
    · exact ⟨_, digits_eval (p := ._10M)
        (Or.inr (Or.inr (Or.inr (Or.inl ⟨by omega, rfl⟩)))) hlen2 hhalfE
        hhalfN⟩
    · exact ⟨_, digits_eval (p := ._1M)
        (Or.inr (Or.inr (Or.inr (Or.inr ⟨by omega, rfl⟩)))) hlen2 hhalfE
        hhalfN⟩

/-- C10 witness: the suffix `"+1+2"` is accepted. -/
theorem digits_plus_sign_c10_witness :
    ∃ v, digits ("+1+2".toList) = .ok v :=
  digits_plus_sign_c10.1 ("+1+2".toList) 1 2 (by decide) (by decide)
    (by decide) (by decide)
